import Mathlib

/-!
Verification of the `solvelrr` package (src/package/index.js).

The JavaScript source exposes a single function `solveLRR` that takes the
coefficients (functions of the index), the initial terms, a non-homogeneous
term, a memory policy flag, and ring operations (`add`, `multiply`, `zero`),
and returns either an `Error` (on a length mismatch) or a closure evaluating
the recurrence at a non-negative index.

The embedding below mirrors the source line by line:
* `LRRConfig` collects the construction parameters other than the initial
  terms and the memory flag (the captured variables of the closure).
* `ithTerm` is the body of the inner `for (j = 1; j <= coefficients.length; ...)`
  loop plus the subsequent `add(ith_rr_term, non_hom_term(i))` statement.
* `calcLoop` is the outer `for (i = largest_calculated_index; i <= n; ++i)`
  loop, including the `push`/`shift` window update.
* `jsEvalCall` is one invocation of the returned closure: it returns the
  produced value together with the contents of `initial_terms_og` after the
  call.  In the source, when `memory_opt` is false the working array `it`
  aliases `initial_terms_og` (so pushes persist across calls), while when
  `memory_opt` is true `it` is a per-call copy `[...initial_terms_og]` and
  `initial_terms_og` is left untouched; `jsEvalCall` returns the persistent
  array accordingly.
* `solveLRR` is the construction step, including the defensive copy
  `let initial_terms_og = [...initial_terms]` and the length check.

JavaScript array reads `it[x]` are modelled with `List.getD _ x cfg.zero`;
every access performed in the situations covered by the theorems below is
proved (or shown inside the proofs) to be in bounds, so the default is never
produced except where a theorem explicitly notes otherwise.
-/

/-- The parameters captured by the closure returned by `solveLRR`, other than
the mutable array `initial_terms_og` and the `memory_opt` flag. -/
structure LRRConfig (α : Type) where
  coefficients : List (Nat → α)
  non_hom_term : Nat → α
  add : α → α → α
  multiply : α → α → α
  zero : α

variable {α : Type}

/-- Body of the inner loop of the closure, for computing the `i`-th term:
`ith_rr_term` starts at `zero()`, then for `j = 1 .. coefficients.length`,
`ith_rr_term = add(ith_rr_term, multiply(it[b - j], coefficients[j-1](i)))`
(where `b` is `largest_calculated_index` when `memory_opt` is set and `i`
otherwise), and finally `ith_rr_term = add(ith_rr_term, non_hom_term(i))`. -/
def ithTerm (cfg : LRRConfig α) (it : List α) (b i : Nat) : α :=
  cfg.add
    ((List.range cfg.coefficients.length).foldl
      (fun acc j =>
        cfg.add acc
          (cfg.multiply (it.getD (b - (j + 1)) cfg.zero)
            ((cfg.coefficients.getD j (fun _ => cfg.zero)) i)))
      cfg.zero)
    (cfg.non_hom_term i)

/-- The outer loop `for (i = largest_calculated_index; i <= n; ++i)` of the
closure, run for `steps` iterations starting at index `i` on working array
`it`: each iteration pushes the freshly computed term and, when `memory_opt`
is set, shifts off the first element of the window. -/
def calcLoop (cfg : LRRConfig α) (memory_opt : Bool) (lci : Nat) :
    List α → Nat → Nat → List α
  | it, _, 0 => it
  | it, i, steps + 1 =>
    calcLoop cfg memory_opt lci
      (if memory_opt then (it ++ [ithTerm cfg it lci i]).drop 1
       else it ++ [ithTerm cfg it i i])
      (i + 1) steps

/-- One invocation of the closure returned by `solveLRR` at argument `n`,
starting from persistent array contents `itog` (the current value of
`initial_terms_og`).  Returns the value produced together with the contents
of `initial_terms_og` after the call: unchanged when `memory_opt` is true
(the working array is the per-call copy `[...initial_terms_og]`), and the
grown working array itself when `memory_opt` is false (the working array
aliases `initial_terms_og`). -/
def jsEvalCall (cfg : LRRConfig α) (memory_opt : Bool) (itog : List α)
    (n : Nat) : α × List α :=
  let lci := itog.length
  if n < lci then (itog.getD n cfg.zero, itog)
  else
    let final := calcLoop cfg memory_opt lci itog lci (n + 1 - lci)
    (if memory_opt then final.getD (lci - 1) cfg.zero else final.getD n cfg.zero,
     if memory_opt then itog else final)

/-- Result of a call to `solveLRR`: either the `Error` value (whose message
is built from the two offending lists, modelled here by the constructor
carrying both lists), or the evaluator closure, represented by its captured
configuration, its memory flag, and the initial contents of the captured
mutable array `initial_terms_og`. -/
inductive SolveResult (α : Type) where
  | error (coefficients : List (Nat → α)) (initial_terms : List α)
  | evaluator (cfg : LRRConfig α) (memory_opt : Bool) (itog : List α)

/-- The construction step of `solveLRR`: take the defensive copy
`initial_terms_og = [...initial_terms]` (value semantics make the copy the
same list value), check the lengths, and return the error or the closure. -/
def solveLRR (coefficients : List (Nat → α)) (initial_terms : List α)
    (non_hom_term : Nat → α) (memory_opt : Bool)
    (add multiply : α → α → α) (zero : α) : SolveResult α :=
  let initial_terms_og := initial_terms
  if coefficients.length ≠ initial_terms_og.length then
    SolveResult.error coefficients initial_terms
  else
    SolveResult.evaluator
      ⟨coefficients, non_hom_term, add, multiply, zero⟩ memory_opt initial_terms_og

/-- Result of the first call on a freshly constructed evaluator. -/
def evalFresh (cfg : LRRConfig α) (memory_opt : Bool) (init : List α)
    (n : Nat) : α :=
  (jsEvalCall cfg memory_opt init n).1

/-- Run a sequence of calls on one evaluator instance, threading the
persistent array through the calls; returns the list of produced values and
the final array contents. -/
def callSeq (cfg : LRRConfig α) (memory_opt : Bool) :
    List α → List Nat → List α × List α
  | itog, [] => ([], itog)
  | itog, n :: ns =>
    let p := jsEvalCall cfg memory_opt itog n
    let rest := callSeq cfg memory_opt p.2 ns
    (p.1 :: rest.1, rest.2)

/-- Contents of the evaluator's persistent array after a sequence of calls. -/
def stateAfter (cfg : LRRConfig α) (memory_opt : Bool) (itog : List α)
    (hs : List Nat) : List α :=
  (callSeq cfg memory_opt itog hs).2

/-- Value returned by a call at `n` made after the call history `hs`. -/
def evalAfter (cfg : LRRConfig α) (memory_opt : Bool) (itog : List α)
    (hs : List Nat) (n : Nat) : α :=
  (jsEvalCall cfg memory_opt (stateAfter cfg memory_opt itog hs) n).1

/-- Reference table of the sequence defined by the construction parameters:
`lrrTable cfg init m` is the list of the first `init.length + m` terms,
built exactly as the full-history loop of the source builds its array. -/
def lrrTable (cfg : LRRConfig α) (init : List α) : Nat → List α
  | 0 => init
  | m + 1 =>
    lrrTable cfg init m ++
      [ithTerm cfg (lrrTable cfg init m) (init.length + m) (init.length + m)]

/-- The `n`-th term of the sequence defined by the construction parameters. -/
def lrrFun (cfg : LRRConfig α) (init : List α) (n : Nat) : α :=
  (lrrTable cfg init (n + 1 - init.length)).getD n cfg.zero

/-- Supported query pattern of the specification: starting from high-water
mark `k - 1` (the largest index covered by the initial terms), every queried
index is at most `k` behind the current high-water mark, which each query
then updates. -/
def supportedPattern (k : Nat) : Nat → List Nat → Bool
  | _, [] => true
  | hwm, n :: ns => decide (hwm ≤ n + k) && supportedPattern k (max hwm n) ns

/-- High-water mark reached after a history of queries: the largest index
computed so far, starting from `k - 1` for the initial terms. -/
def hwmAfter (k : Nat) (hs : List Nat) : Nat :=
  hs.foldl max (k - 1)

/-!
A minimal mutable-array heap for the aliasing claim: JavaScript arrays are
reference values, so the defensive copy `[...initial_terms]` allocates a new
array.  `JSHeap` maps references (naturals below `next`) to array contents.
-/

/-- Heap of JavaScript arrays: `mem r` is the contents of the array with
reference `r`; references below `next` are allocated. -/
structure JSHeap (α : Type) where
  mem : Nat → List α
  next : Nat

/-- Read an array from the heap. -/
def readArr (h : JSHeap α) (r : Nat) : List α := h.mem r

/-- Overwrite the contents of the array at reference `r` (in-place array
mutation, e.g. `push` on an aliased array or a caller mutating its list). -/
def writeArr (h : JSHeap α) (r : Nat) (v : List α) : JSHeap α :=
  ⟨fun x => if x = r then v else h.mem x, h.next⟩

/-- Allocate a fresh array with contents `v`, returning the new heap and the
fresh reference (this is what the spread `[...initial_terms]` does). -/
def allocArr (h : JSHeap α) (v : List α) : JSHeap α × Nat :=
  (⟨fun x => if x = h.next then v else h.mem x, h.next + 1⟩, h.next)

/-- Heap-level result of `solveLRR`: the error, or the closure capturing the
reference to the freshly allocated `initial_terms_og` array. -/
inductive SolveResultRef (α : Type) where
  | error (coefficients : List (Nat → α)) (initial_terms : List α)
  | evaluator (cfg : LRRConfig α) (memory_opt : Bool) (itogRef : Nat)

/-- Heap-level construction: read the caller's array, allocate the defensive
copy `initial_terms_og = [...initial_terms]`, then perform the length check. -/
def solveLRRHeap (h : JSHeap α) (coefficients : List (Nat → α))
    (callerRef : Nat) (non_hom_term : Nat → α) (memory_opt : Bool)
    (add multiply : α → α → α) (zero : α) : JSHeap α × SolveResultRef α :=
  let initial_terms := readArr h callerRef
  let p := allocArr h initial_terms
  if coefficients.length ≠ initial_terms.length then
    (p.1, SolveResultRef.error coefficients initial_terms)
  else
    (p.1, SolveResultRef.evaluator
      ⟨coefficients, non_hom_term, add, multiply, zero⟩ memory_opt p.2)

/-- Heap-level invocation of the closure: read `initial_terms_og`, run the
call, write the (possibly grown) persistent array back in place. -/
def evalHeap (cfg : LRRConfig α) (memory_opt : Bool) (itogRef : Nat)
    (h : JSHeap α) (n : Nat) : α × JSHeap α :=
  let p := jsEvalCall cfg memory_opt (readArr h itogRef) n
  (p.1, writeArr h itogRef p.2)

/-- An event performed by the caller after construction: either a call of the
evaluator, or a mutation of the caller's own `initial_terms` array. -/
inductive CallerEvent (α : Type) where
  | query (n : Nat)
  | mutate (v : List α)

/-- Run a list of caller events against the heap, collecting the values
returned by the query events. -/
def runEvents (cfg : LRRConfig α) (memory_opt : Bool)
    (itogRef callerRef : Nat) : JSHeap α → List (CallerEvent α) → List α
  | _, [] => []
  | h, CallerEvent.query n :: es =>
    let p := evalHeap cfg memory_opt itogRef h n
    p.1 :: runEvents cfg memory_opt itogRef callerRef p.2 es
  | h, CallerEvent.mutate v :: es =>
    runEvents cfg memory_opt itogRef callerRef (writeArr h callerRef v) es

/-- Remove the caller's mutation events, keeping only the queries. -/
def dropMutations : List (CallerEvent α) → List (CallerEvent α)
  | [] => []
  | CallerEvent.query n :: es => CallerEvent.query n :: dropMutations es
  | CallerEvent.mutate _ :: es => dropMutations es

/-- Fibonacci construction over the standard integers: coefficient
functions `[_ => 1, _ => 1]`, homogeneous, initial terms `[1, 1]`, default
integer ring operations (used by the concrete scenarios below). -/
def fibCfg : LRRConfig Int :=
  ⟨[fun _ => 1, fun _ => 1], fun _ => 0, (· + ·), (· * ·), 0⟩

/-- Two-by-two integer matrices `[[a, b], [c, d]]`: a genuine noncommutative
ring, usable as a custom data type for `solveLRR` exactly as the
specification intends (it names matrices among the supported rings). -/
structure M2 where
  a : Int
  b : Int
  c : Int
  d : Int
deriving DecidableEq

/-- Matrix addition. -/
def M2.madd (x y : M2) : M2 :=
  ⟨x.a + y.a, x.b + y.b, x.c + y.c, x.d + y.d⟩

/-- Matrix multiplication. -/
def M2.mmul (x y : M2) : M2 :=
  ⟨x.a * y.a + x.b * y.c, x.a * y.b + x.b * y.d,
   x.c * y.a + x.d * y.c, x.c * y.b + x.d * y.d⟩

/-- The zero matrix. -/
def M2.mzero : M2 := ⟨0, 0, 0, 0⟩

/-- An order-one homogeneous construction over the matrix ring with the
constant coefficient `[[0, 1], [0, 0]]`. -/
def m2Cfg : LRRConfig M2 :=
  ⟨[fun _ => ⟨0, 1, 0, 0⟩], fun _ => M2.mzero, M2.madd, M2.mmul, M2.mzero⟩

/-- A concrete two-array heap for the aliasing scenario: the caller owns the
array at reference 0, holding the Fibonacci initial terms. -/
def heapW : JSHeap Int := ⟨fun _ => [1, 1], 1⟩


theorem lrrTable_length (cfg : LRRConfig α) (init : List α) (m : Nat) :
    (lrrTable cfg init m).length = init.length + m := by
  induction m with
  | zero => rfl
  | succ m ih => simp [lrrTable, ih]; omega

theorem lrrTable_getD_succ (cfg : LRRConfig α) (init : List α) (d : α)
    (m j : Nat) (hj : j < init.length + m) :
    (lrrTable cfg init (m + 1)).getD j d = (lrrTable cfg init m).getD j d := by
  have hl : j < (lrrTable cfg init m).length := by
    rw [lrrTable_length]; exact hj
  exact List.getD_append _ _ _ _ hl

theorem lrrTable_getD_mono (cfg : LRRConfig α) (init : List α) (d : α)
    (m m' j : Nat) (hm : m ≤ m') (hj : j < init.length + m) :
    (lrrTable cfg init m').getD j d = (lrrTable cfg init m).getD j d := by
  induction m' with
  | zero =>
    have : m = 0 := Nat.le_zero.mp hm
    subst this; rfl
  | succ m' ih =>
    rcases Nat.lt_or_ge m (m' + 1) with h | h
    · have hm' : m ≤ m' := Nat.lt_succ_iff.mp h
      rw [lrrTable_getD_succ cfg init d m' j (by omega)]
      exact ih hm'
    · have : m = m' + 1 := Nat.le_antisymm hm h
      subst this; rfl

theorem lrrFun_eq_getD (cfg : LRRConfig α) (init : List α)
    {m n : Nat} (hn : n < init.length + m) :
    lrrFun cfg init n = (lrrTable cfg init m).getD n cfg.zero := by
  unfold lrrFun
  rw [lrrTable_getD_mono cfg init cfg.zero (n + 1 - init.length) m n
    (by omega) (by omega)]

theorem lrrFun_init (cfg : LRRConfig α) (init : List α)
    {n : Nat} (hn : n < init.length) :
    lrrFun cfg init n = init.getD n cfg.zero := by
  have := lrrFun_eq_getD cfg init (m := 0) (n := n) (by omega)
  simpa [lrrTable] using this

theorem calcLoop_false (cfg : LRRConfig α) (init : List α) (lci : Nat) :
    ∀ steps m, calcLoop cfg false lci (lrrTable cfg init m)
      (init.length + m) steps = lrrTable cfg init (m + steps) := by
  intro steps
  induction steps with
  | zero => intro m; rfl
  | succ s ih =>
    intro m
    have h1 : calcLoop cfg false lci (lrrTable cfg init m)
        (init.length + m) (s + 1)
        = calcLoop cfg false lci (lrrTable cfg init (m + 1))
          (init.length + (m + 1)) s := by
      simp only [calcLoop, if_neg (Bool.false_ne_true)]
      rfl
    rw [h1, ih (m + 1)]
    congr 1
    omega

theorem jsEvalCall_false_fst (cfg : LRRConfig α) (init : List α) (m n : Nat) :
    (jsEvalCall cfg false (lrrTable cfg init m) n).1 = lrrFun cfg init n := by
  unfold jsEvalCall
  rcases Nat.lt_or_ge n (lrrTable cfg init m).length with h | h
  · rw [if_pos h, lrrFun_eq_getD cfg init (m := m) (by rw [lrrTable_length] at h; omega)]
  · rw [if_neg (by omega)]
    simp only
    rw [lrrTable_length] at h ⊢
    rw [calcLoop_false cfg init]
    have harg : m + (n + 1 - (init.length + m)) = n + 1 - init.length := by omega
    rw [harg]
    rfl

theorem jsEvalCall_false_snd (cfg : LRRConfig α) (init : List α) (m n : Nat) :
    ∃ m', (jsEvalCall cfg false (lrrTable cfg init m) n).2 = lrrTable cfg init m' := by
  unfold jsEvalCall
  rcases Nat.lt_or_ge n (lrrTable cfg init m).length with h | h
  · exact ⟨m, by rw [if_pos h]⟩
  · refine ⟨m + (n + 1 - (init.length + m)), ?_⟩
    rw [if_neg (by omega)]
    simp only
    rw [lrrTable_length]
    rw [calcLoop_false cfg init]
    simp

theorem getD_drop_add (l : List α) (m i : Nat) (d : α) (h : m + i < l.length) :
    (l.drop m).getD i d = l.getD (m + i) d := by
  have h2 : i < (l.drop m).length := by simp; omega
  rw [List.getD_eq_getElem _ _ h2, List.getD_eq_getElem _ _ h]
  simp [List.getElem_drop]

theorem calcLoop_true (cfg : LRRConfig α) (init : List α)
    (hlen : cfg.coefficients.length = init.length) (hk : 1 ≤ init.length) :
    ∀ steps m, calcLoop cfg true init.length ((lrrTable cfg init m).drop m)
      (init.length + m) steps = (lrrTable cfg init (m + steps)).drop (m + steps) := by
  intro steps
  induction steps with
  | zero => intro m; rfl
  | succ s ih =>
    intro m
    have hA : ithTerm cfg ((lrrTable cfg init m).drop m) init.length
        (init.length + m)
        = ithTerm cfg (lrrTable cfg init m) (init.length + m)
          (init.length + m) := by
      unfold ithTerm
      congr 1
      apply List.foldl_ext
      intro acc j hj
      rw [List.mem_range, hlen] at hj
      congr 1
      congr 1
      rw [getD_drop_add _ _ _ _ (by rw [lrrTable_length]; omega)]
      congr 1
      omega
    have hB : (((lrrTable cfg init m).drop m
          ++ [ithTerm cfg (lrrTable cfg init m) (init.length + m)
                (init.length + m)]).drop 1)
        = (lrrTable cfg init (m + 1)).drop (m + 1) := by
      rw [List.drop_append_eq_append_drop]
      have hlw : ((lrrTable cfg init m).drop m).length = init.length := by
        rw [List.length_drop, lrrTable_length]; omega
      rw [hlw]
      have h1k : 1 - init.length = 0 := by omega
      rw [h1k, List.drop_drop]
      show (lrrTable cfg init m).drop (m + 1) ++ _
        = (lrrTable cfg init (m + 1)).drop (m + 1)
      rw [lrrTable, List.drop_append_eq_append_drop, lrrTable_length]
      have h2 : m + 1 - (init.length + m) = 0 := by omega
      rw [h2]
    have h1 : calcLoop cfg true init.length ((lrrTable cfg init m).drop m)
        (init.length + m) (s + 1)
        = calcLoop cfg true init.length
          ((lrrTable cfg init (m + 1)).drop (m + 1))
          (init.length + (m + 1)) s := by
      simp only [calcLoop, if_pos]
      rw [hA, hB]
      rfl
    have hms : m + 1 + s = m + (s + 1) := by omega
    rw [h1, ih (m + 1), hms]

theorem jsEvalCall_true_fst (cfg : LRRConfig α) (init : List α)
    (hlen : cfg.coefficients.length = init.length) (hk : 1 ≤ init.length)
    (n : Nat) :
    (jsEvalCall cfg true init n).1 = lrrFun cfg init n := by
  rcases Nat.lt_or_ge n init.length with h | h
  · unfold jsEvalCall
    rw [if_pos h, lrrFun_init cfg init h]
  · have hloop : calcLoop cfg true init.length init init.length
        (n + 1 - init.length)
        = (lrrTable cfg init (n + 1 - init.length)).drop (n + 1 - init.length) := by
      have h0 := calcLoop_true cfg init hlen hk (n + 1 - init.length) 0
      simpa using h0
    unfold jsEvalCall
    rw [if_neg (by omega)]
    show (calcLoop cfg true init.length init init.length
        (n + 1 - init.length)).getD (init.length - 1) cfg.zero = lrrFun cfg init n
    rw [hloop]
    rw [getD_drop_add _ _ _ _ (by rw [lrrTable_length]; omega)]
    have harg : n + 1 - init.length + (init.length - 1) = n := by omega
    rw [harg]
    exact (lrrFun_eq_getD cfg init (by omega)).symm

theorem jsEvalCall_true_snd (cfg : LRRConfig α) (itog : List α) (n : Nat) :
    (jsEvalCall cfg true itog n).2 = itog := by
  unfold jsEvalCall
  rcases Nat.lt_or_ge n itog.length with h | h
  · rw [if_pos h]
  · rw [if_neg (by omega)]
    rfl

theorem stateAfter_true (cfg : LRRConfig α) (itog : List α) (hs : List Nat) :
    stateAfter cfg true itog hs = itog := by
  induction hs generalizing itog with
  | nil => rfl
  | cons n ns ih =>
    show (callSeq cfg true itog (n :: ns)).2 = itog
    simp only [callSeq]
    rw [jsEvalCall_true_snd]
    exact ih itog

theorem stateAfter_false_table (cfg : LRRConfig α) (init : List α) :
    ∀ hs m, ∃ m', stateAfter cfg false (lrrTable cfg init m) hs
      = lrrTable cfg init m' := by
  intro hs
  induction hs with
  | nil => intro m; exact ⟨m, rfl⟩
  | cons n ns ih =>
    intro m
    show ∃ m', (callSeq cfg false (lrrTable cfg init m) (n :: ns)).2
      = lrrTable cfg init m'
    simp only [callSeq]
    obtain ⟨m1, hm1⟩ := jsEvalCall_false_snd cfg init m n
    rw [hm1]
    exact ih m1

theorem callSeq_false_results (cfg : LRRConfig α) (init : List α) :
    ∀ qs m, (callSeq cfg false (lrrTable cfg init m) qs).1
      = qs.map (lrrFun cfg init) := by
  intro qs
  induction qs with
  | nil => intro m; rfl
  | cons n ns ih =>
    intro m
    simp only [callSeq, List.map]
    obtain ⟨m1, hm1⟩ := jsEvalCall_false_snd cfg init m n
    rw [jsEvalCall_false_fst, hm1, ih m1]

theorem callSeq_true_results (cfg : LRRConfig α) (init : List α)
    (hlen : cfg.coefficients.length = init.length) (hk : 1 ≤ init.length) :
    ∀ qs, (callSeq cfg true init qs).1 = qs.map (lrrFun cfg init) := by
  intro qs
  induction qs with
  | nil => rfl
  | cons n ns ih =>
    simp only [callSeq, List.map]
    rw [jsEvalCall_true_fst cfg init hlen hk, jsEvalCall_true_snd, ih]

theorem evalAfter_false (cfg : LRRConfig α) (init : List α)
    (hs : List Nat) (n : Nat) :
    evalAfter cfg false init hs n = lrrFun cfg init n := by
  obtain ⟨m, hm⟩ := stateAfter_false_table cfg init hs 0
  unfold evalAfter
  have hm' : stateAfter cfg false init hs = lrrTable cfg init m := hm
  rw [hm', jsEvalCall_false_fst]

theorem evalAfter_true (cfg : LRRConfig α) (init : List α)
    (hlen : cfg.coefficients.length = init.length) (hk : 1 ≤ init.length)
    (hs : List Nat) (n : Nat) :
    evalAfter cfg true init hs n = lrrFun cfg init n := by
  unfold evalAfter
  rw [stateAfter_true]
  exact jsEvalCall_true_fst cfg init hlen hk n

theorem evalFresh_eq_lrrFun (cfg : LRRConfig α) (init : List α) (b : Bool)
    (hlen : cfg.coefficients.length = init.length) (hk : 1 ≤ init.length)
    (n : Nat) :
    evalFresh cfg b init n = lrrFun cfg init n := by
  cases b
  · exact jsEvalCall_false_fst cfg init 0 n
  · exact jsEvalCall_true_fst cfg init hlen hk n

theorem lrrFun_recurrence (cfg : LRRConfig α) (init : List α)
    (hk : 1 ≤ init.length) {n : Nat} (hn : init.length ≤ n) :
    lrrFun cfg init n
      = cfg.add
          ((List.range cfg.coefficients.length).foldl
            (fun acc j =>
              cfg.add acc
                (cfg.multiply (lrrFun cfg init (n - (j + 1)))
                  ((cfg.coefficients.getD j (fun _ => cfg.zero)) n)))
            cfg.zero)
          (cfg.non_hom_term n) := by
  have hs : n + 1 - init.length = (n - init.length) + 1 := by omega
  have hidx : init.length + (n - init.length) = n := by omega
  have hlhs : lrrFun cfg init n
      = ithTerm cfg (lrrTable cfg init (n - init.length)) n n := by
    unfold lrrFun
    rw [hs]
    show (lrrTable cfg init (n - init.length)
        ++ [ithTerm cfg (lrrTable cfg init (n - init.length))
              (init.length + (n - init.length))
              (init.length + (n - init.length))]).getD n cfg.zero = _
    rw [List.getD_append_right _ _ _ _ (by rw [lrrTable_length]; omega)]
    rw [lrrTable_length]
    have h0 : n - (init.length + (n - init.length)) = 0 := by omega
    rw [h0, hidx]
    rfl
  rw [hlhs]
  unfold ithTerm
  congr 1
  apply List.foldl_ext
  intro acc j hj
  rw [List.mem_range] at hj
  congr 2
  exact (lrrFun_eq_getD cfg init (m := n - init.length) (by omega)).symm

theorem runEvents_agree (cfg : LRRConfig α) (b : Bool)
    (itogRef callerRef : Nat) (hne : itogRef ≠ callerRef) :
    ∀ (es : List (CallerEvent α)) (h h' : JSHeap α),
      h.mem itogRef = h'.mem itogRef →
      runEvents cfg b itogRef callerRef h es
        = runEvents cfg b itogRef callerRef h' (dropMutations es) := by
  intro es
  induction es with
  | nil => intro h h' _; rfl
  | cons e es ih =>
    intro h h' hmem
    cases e with
    | query n =>
      show (jsEvalCall cfg b (readArr h itogRef) n).1 :: _
        = (jsEvalCall cfg b (readArr h' itogRef) n).1 :: _
      have hread : readArr h itogRef = readArr h' itogRef := hmem
      rw [hread]
      congr 1
      apply ih
      show (writeArr h itogRef _).mem itogRef = (writeArr h' itogRef _).mem itogRef
      simp [writeArr, hread]
    | mutate v =>
      show runEvents cfg b itogRef callerRef (writeArr h callerRef v) es
        = runEvents cfg b itogRef callerRef h' (dropMutations es)
      apply ih
      show (writeArr h callerRef v).mem itogRef = h'.mem itogRef
      simp only [writeArr]
      rw [if_neg hne]
      exact hmem

/-- Claim C1 counterexample: over the noncommutative matrix ring, the
evaluator for the order-one recurrence with constant coefficient
`[[0, 1], [0, 0]]` and initial term `[[0, 0], [1, 0]]` does not satisfy the
claimed law with the product taken coefficient-times-term: the source
computes `multiply(it[i-j], coefficients[j-1](i))`, term first. -/
theorem C1_counterexample :
    evalFresh m2Cfg false [⟨0, 0, 1, 0⟩] 1
      ≠ m2Cfg.add
          ((List.range m2Cfg.coefficients.length).foldl
            (fun acc j =>
              m2Cfg.add acc
                (m2Cfg.multiply
                  ((m2Cfg.coefficients.getD j (fun _ => m2Cfg.zero)) 1)
                  (evalFresh m2Cfg false [⟨0, 0, 1, 0⟩] (1 - (j + 1)))))
            m2Cfg.zero)
          (m2Cfg.non_hom_term 1) := by
  decide

/-- Claim C1 (amended): for every valid construction (equal lengths, k ≥ 1)
and every n ≥ k, `evaluate(n)` equals the left-to-right sum, accumulated
with ring add from ring zero, of `multiply(evaluate(n-j), coefficients[j-1](n))`
for j = 1..k — the product taken term first, coefficient second, as the
source writes it — plus `non_hom_term(n)`, in both memory modes. -/
theorem C1_amended_recurrence_law (cfg : LRRConfig α) (init : List α)
    (b : Bool) (hlen : cfg.coefficients.length = init.length)
    (hk : 1 ≤ init.length) (n : Nat) (hn : init.length ≤ n) :
    evalFresh cfg b init n
      = cfg.add
          ((List.range cfg.coefficients.length).foldl
            (fun acc j =>
              cfg.add acc
                (cfg.multiply (evalFresh cfg b init (n - (j + 1)))
                  ((cfg.coefficients.getD j (fun _ => cfg.zero)) n)))
            cfg.zero)
          (cfg.non_hom_term n) := by
  rw [evalFresh_eq_lrrFun cfg init b hlen hk, lrrFun_recurrence cfg init hk hn]
  congr 1
  apply List.foldl_ext
  intro acc j hj
  rw [evalFresh_eq_lrrFun cfg init b hlen hk]

theorem C1_amended_recurrence_law_witness :
    (fibCfg.coefficients.length = [(1 : Int), 1].length
      ∧ 1 ≤ [(1 : Int), 1].length ∧ [(1 : Int), 1].length ≤ 10)
    ∧ evalFresh fibCfg false [(1 : Int), 1] 10
        = fibCfg.add
            ((List.range fibCfg.coefficients.length).foldl
              (fun acc j =>
                fibCfg.add acc
                  (fibCfg.multiply (evalFresh fibCfg false [(1 : Int), 1] (10 - (j + 1)))
                    ((fibCfg.coefficients.getD j (fun _ => fibCfg.zero)) 10)))
              fibCfg.zero)
            (fibCfg.non_hom_term 10) :=
  ⟨⟨by decide, by decide, by decide⟩,
    C1_amended_recurrence_law fibCfg [(1 : Int), 1] false (by decide) (by decide)
      10 (by decide)⟩

/-- Claim C2: for every construction and every n < k, `evaluate(n)` on a
fresh evaluator returns `initial_terms[n]` itself via the early-return path,
in both memory modes. -/
theorem C2_prefix_correct (cfg : LRRConfig α) (b : Bool) (init : List α)
    (n : Nat) (hn : n < init.length) :
    evalFresh cfg b init n = init.get ⟨n, hn⟩ := by
  unfold evalFresh jsEvalCall
  rw [if_pos hn]
  show init.getD n cfg.zero = _
  rw [List.getD_eq_getElem _ _ hn]
  rfl

theorem C2_prefix_correct_witness :
    (1 < [(7 : Int), 19].length)
    ∧ evalFresh fibCfg true [(7 : Int), 19] 1
        = [(7 : Int), 19].get ⟨1, by decide⟩ :=
  ⟨by decide, C2_prefix_correct fibCfg true [(7 : Int), 19] 1 (by decide)⟩

/-- Claim C3: whenever the coefficient list and the initial-terms list have
different lengths, `solveLRR` returns the construction error — which carries
both offending lists, as the source message stringifies both — and never an
evaluator. -/
theorem C3_length_mismatch (coefficients : List (Nat → α))
    (initial_terms : List α) (non_hom_term : Nat → α) (memory_opt : Bool)
    (add multiply : α → α → α) (zero : α)
    (hne : coefficients.length ≠ initial_terms.length) :
    solveLRR coefficients initial_terms non_hom_term memory_opt add multiply zero
      = SolveResult.error coefficients initial_terms := by
  unfold solveLRR
  rw [if_pos hne]

theorem C3_length_mismatch_witness :
    (([fun _ => (1 : Int), fun _ => 1] : List (Nat → Int)).length
      ≠ ([1] : List Int).length)
    ∧ solveLRR [fun _ => (1 : Int), fun _ => 1] ([1] : List Int)
        (fun _ => 0) false (· + ·) (· * ·) 0
      = SolveResult.error [fun _ => (1 : Int), fun _ => 1] [1] :=
  ⟨by decide,
    C3_length_mismatch [fun _ => (1 : Int), fun _ => 1] [1]
      (fun _ => 0) false (· + ·) (· * ·) 0 (by decide)⟩

/-- Claim C4: for one fixed valid construction and any sequence of queries
within the supported pattern, the values returned with `memory_opt = true`
are exactly the values returned with `memory_opt = false`. -/
theorem C4_memoization_irrelevance (cfg : LRRConfig α) (init : List α)
    (hlen : cfg.coefficients.length = init.length) (hk : 1 ≤ init.length)
    (qs : List Nat)
    (hq : supportedPattern init.length (init.length - 1) qs = true) :
    (callSeq cfg true init qs).1 = (callSeq cfg false init qs).1 := by
  rw [callSeq_true_results cfg init hlen hk]
  exact (callSeq_false_results cfg init qs 0).symm

theorem C4_memoization_irrelevance_witness :
    (fibCfg.coefficients.length = [(1 : Int), 1].length
      ∧ 1 ≤ [(1 : Int), 1].length
      ∧ supportedPattern [(1 : Int), 1].length ([(1 : Int), 1].length - 1)
          [0, 5, 10, 9] = true)
    ∧ (callSeq fibCfg true [(1 : Int), 1] [0, 5, 10, 9]).1
        = (callSeq fibCfg false [(1 : Int), 1] [0, 5, 10, 9]).1 :=
  ⟨⟨by decide, by decide, by decide⟩,
    C4_memoization_irrelevance fibCfg [(1 : Int), 1] (by decide) (by decide)
      [0, 5, 10, 9] (by decide)⟩

/-- Claim C5 counterexample: under `memory_opt = true`, the Fibonacci
evaluator called at 10 (high-water mark 10) and then re-queried at 0 — an
index more than k = 2 behind — returns 1, which is the true term f(0), not a
stale or incorrect window value; indeed the persistent array after the first
call is still exactly the initial terms, so no stale window slot exists. -/
theorem C5_counterexample :
    evalAfter fibCfg true [(1 : Int), 1] [10] 0 = 1
    ∧ lrrFun fibCfg [(1 : Int), 1] 0 = 1
    ∧ stateAfter fibCfg true [(1 : Int), 1] [10] = [(1 : Int), 1] :=
  ⟨by decide, by decide, by decide⟩

/-- Claim C5 (amended): under `memory_opt = true`, re-querying any index m —
in particular one more than k behind the high-water mark of the earlier
calls — returns the true term f(m) rather than a stale value or an error,
because every call re-initializes the window from a fresh copy of the
initial terms. -/
theorem C5_amended_no_stale (cfg : LRRConfig α) (init : List α)
    (hlen : cfg.coefficients.length = init.length) (hk : 1 ≤ init.length)
    (hs : List Nat) (m : Nat)
    (hstale : m + init.length < hwmAfter init.length hs) :
    evalAfter cfg true init hs m = lrrFun cfg init m :=
  evalAfter_true cfg init hlen hk hs m

theorem C5_amended_no_stale_witness :
    (fibCfg.coefficients.length = [(1 : Int), 1].length
      ∧ 1 ≤ [(1 : Int), 1].length
      ∧ 0 + [(1 : Int), 1].length < hwmAfter [(1 : Int), 1].length [10])
    ∧ evalAfter fibCfg true [(1 : Int), 1] [10] 0
        = lrrFun fibCfg [(1 : Int), 1] 0 :=
  ⟨⟨by decide, by decide, by decide⟩,
    C5_amended_no_stale fibCfg [(1 : Int), 1] (by decide) (by decide) [10] 0
      (by decide)⟩

/-- Claim C6 counterexample: constructing with both lists empty (k = 0,
lengths equal) is not a construction-time error — the check only compares
the lengths, `0 === 0` passes, and a usable evaluator is returned. -/
theorem C6_counterexample :
    solveLRR ([] : List (Nat → Int)) [] (fun _ => 0) false (· + ·) (· * ·) 0
      = SolveResult.evaluator
          ⟨[], fun _ => 0, (· + ·), (· * ·), 0⟩ false [] := by
  rfl

/-- Claim C6 (amended): the length check enforces only equality of the two
lengths, so constructing with coefficients and initial terms both empty
(k = 0) succeeds and yields an evaluator; the invariant k ≥ 1 is not
enforced at construction. -/
theorem C6_amended_empty_accepted (non_hom_term : Nat → α) (memory_opt : Bool)
    (add multiply : α → α → α) (zero : α) :
    solveLRR ([] : List (Nat → α)) [] non_hom_term memory_opt add multiply zero
      = SolveResult.evaluator
          ⟨[], non_hom_term, add, multiply, zero⟩ memory_opt [] := by
  rfl

/-- Claim C7 counterexample: the integer Fibonacci evaluator with
f(0) = f(1) = 1 does not return 144 at index 10 — it returns 89 there
(144 is the term at index 11). -/
theorem C7_counterexample :
    ¬ evalFresh fibCfg false [(1 : Int), 1] 10 = 144 := by
  decide

/-- Claim C7 (amended): the evaluator built by `solveLRR` over the standard
integers from coefficient functions `[_ => 1, _ => 1]` and initial terms
`[1, 1]` returns 89 at index 10 in both memory modes, and 144 at index 11. -/
theorem C7_amended_fib_value :
    solveLRR [fun _ => (1 : Int), fun _ => 1] [1, 1] (fun _ => 0) false
      (· + ·) (· * ·) 0
      = SolveResult.evaluator fibCfg false [1, 1]
    ∧ evalFresh fibCfg false [(1 : Int), 1] 10 = 89
    ∧ evalFresh fibCfg true [(1 : Int), 1] 10 = 89
    ∧ evalFresh fibCfg false [(1 : Int), 1] 11 = 144 :=
  ⟨rfl, by decide, by decide, by decide⟩

/-- Claim C8: on one evaluator instance, a repeated call at n — immediately
after a first call at n, possibly with intervening calls at indices ≥ n —
returns the identical value, in both memory modes, for any valid
construction with pure ring operations. -/
theorem C8_repeat_deterministic (cfg : LRRConfig α) (init : List α)
    (b : Bool) (hlen : cfg.coefficients.length = init.length)
    (hk : 1 ≤ init.length) (hs ms : List Nat) (n : Nat)
    (hms : ∀ m ∈ ms, n ≤ m) :
    evalAfter cfg b init (hs ++ n :: ms) n = evalAfter cfg b init hs n := by
  cases b
  · rw [evalAfter_false, evalAfter_false]
  · rw [evalAfter_true cfg init hlen hk, evalAfter_true cfg init hlen hk]

theorem C8_repeat_deterministic_witness :
    (fibCfg.coefficients.length = [(1 : Int), 1].length
      ∧ 1 ≤ [(1 : Int), 1].length ∧ ∀ m ∈ [4, 7], 3 ≤ m)
    ∧ evalAfter fibCfg false [(1 : Int), 1] ([3] ++ 3 :: [4, 7]) 3
        = evalAfter fibCfg false [(1 : Int), 1] [3] 3 :=
  ⟨⟨by decide, by decide, by decide⟩,
    C8_repeat_deterministic fibCfg [(1 : Int), 1] false (by decide) (by decide)
      [3] [4, 7] 3 (by decide)⟩

/-- Claim C9: construction copies `initial_terms` into a freshly allocated
array, so mutating the caller's array after `solveLRR` returns — anywhere
between evaluate calls — changes none of the values the evaluator returns:
running any event sequence gives the same query results as running the same
sequence with all caller mutations removed. -/
theorem C9_defensive_copy (h : JSHeap α) (coefficients : List (Nat → α))
    (callerRef : Nat) (non_hom_term : Nat → α) (memory_opt : Bool)
    (add multiply : α → α → α) (zero : α) (es : List (CallerEvent α))
    (href : callerRef < h.next)
    (hlen : coefficients.length = (readArr h callerRef).length) :
    (solveLRRHeap h coefficients callerRef non_hom_term memory_opt
        add multiply zero).2
      = SolveResultRef.evaluator
          ⟨coefficients, non_hom_term, add, multiply, zero⟩ memory_opt h.next
    ∧ runEvents ⟨coefficients, non_hom_term, add, multiply, zero⟩ memory_opt
        h.next callerRef
        (solveLRRHeap h coefficients callerRef non_hom_term memory_opt
          add multiply zero).1 es
      = runEvents ⟨coefficients, non_hom_term, add, multiply, zero⟩ memory_opt
          h.next callerRef
          (solveLRRHeap h coefficients callerRef non_hom_term memory_opt
            add multiply zero).1 (dropMutations es) := by
  constructor
  · unfold solveLRRHeap
    rw [if_neg (fun hc => hc hlen)]
    rfl
  · exact runEvents_agree _ memory_opt h.next callerRef (by omega) es _ _ rfl

theorem C9_defensive_copy_witness :
    (0 < heapW.next
      ∧ ([fun _ => (1 : Int), fun _ => 1] : List (Nat → Int)).length
          = (readArr heapW 0).length)
    ∧ ((solveLRRHeap heapW [fun _ => (1 : Int), fun _ => 1] 0 (fun _ => 0)
          false (· + ·) (· * ·) 0).2
        = SolveResultRef.evaluator
            ⟨[fun _ => (1 : Int), fun _ => 1], fun _ => 0, (· + ·), (· * ·), 0⟩
            false heapW.next
      ∧ runEvents
          ⟨[fun _ => (1 : Int), fun _ => 1], fun _ => 0, (· + ·), (· * ·), 0⟩
          false heapW.next 0
          (solveLRRHeap heapW [fun _ => (1 : Int), fun _ => 1] 0 (fun _ => 0)
            false (· + ·) (· * ·) 0).1
          [CallerEvent.query 5, CallerEvent.mutate [9, 9], CallerEvent.query 5]
        = runEvents
            ⟨[fun _ => (1 : Int), fun _ => 1], fun _ => 0, (· + ·), (· * ·), 0⟩
            false heapW.next 0
            (solveLRRHeap heapW [fun _ => (1 : Int), fun _ => 1] 0 (fun _ => 0)
              false (· + ·) (· * ·) 0).1
            (dropMutations
              [CallerEvent.query 5, CallerEvent.mutate [9, 9],
                CallerEvent.query 5])) :=
  ⟨⟨by decide, by decide⟩,
    C9_defensive_copy heapW [fun _ => (1 : Int), fun _ => 1] 0 (fun _ => 0)
      false (· + ·) (· * ·) 0
      [CallerEvent.query 5, CallerEvent.mutate [9, 9], CallerEvent.query 5]
      (by decide) (by decide)⟩

/-- Claim C10: under `memory_opt = true` the value of `evaluate(n)` does not
depend on the prior call history of the instance: every call starts from a
fresh copy of the initial terms and the persistent array never changes, so
any two histories give the same value at every n. -/
theorem C10_history_independence (cfg : LRRConfig α) (init : List α)
    (n : Nat) (hs1 hs2 : List Nat) :
    evalAfter cfg true init hs1 n = evalAfter cfg true init hs2 n := by
  unfold evalAfter
  rw [stateAfter_true, stateAfter_true]
